import Mathlib

/-
Verification of the bookworm TOC tree builder and structural navigator.

The definitions below are a shallow embedding of:
  * bookworm/document_formats/mu/__init__.py  (FitzDocument.toc_tree)
  * bookworm/gui/book_viewer/__init__.py      (navigate_to_structural_element,
    onTOCItemClick, BookViewerWindow.__init__)
  * bookworm/platforms/win32/speech_engines/piper/__init__.py
    (PiperSpeechEngine.speak_utterance)
Python ints are modelled as Int (page numbers, outline levels) or Nat
(character offsets, which are non-negative).  Code that can raise IndexError
is modelled with Option: `none` is an uncaught IndexError.
-/

namespace Bookworm

/-- Pager from bookworm/document_formats/base: first/last/current page bounds
of a section.  Pages are Python ints. -/
structure Pager where
  first : Int
  last : Int
  current : Int
deriving Repr, DecidableEq

/-- Section from bookworm/document_formats/base: a node of the reconstructed
table-of-contents tree.  `append` in the source adds to `children`. -/
structure Section where
  title : String
  pager : Pager
  children : List Section
deriving Repr

/-- One entry of the flat outline returned by `self._ebook.getToC()`:
`(level, title, start_page, *extra)` with a 1-based start page. -/
structure OutlineEntry where
  level : Int
  title : String
  startPage : Int
deriving Repr, DecidableEq

/-- Python's `enumerate`, with an explicit starting index. -/
def enumFrom (i : Nat) : List α → List (Nat × α)
  | [] => []
  | a :: as => (i, a) :: enumFrom (i + 1) as

/-- The sibling scan of `toc_tree` (mu/__init__.py lines 73-80): starting at
`toc[index+1]`, walk forward while the entry's level differs from `level`;
an IndexError (running past the end) yields `None`.  This is exactly the
first entry after index `i` whose level equals `level`. -/
def nextSibling (toc : List OutlineEntry) (i : Nat) (level : Int) :
    Option OutlineEntry :=
  (toc.drop (i + 1)).find? (fun x => x.level == level)

/-- Line 81: `last_page = max_page if next_item is None else (next_item[2] - 2)`. -/
def lastPageFor (toc : List OutlineEntry) (i : Nat) (level : Int)
    (maxPage : Int) : Int :=
  match nextSibling toc i level with
  | none => maxPage
  | some nx => nx.startPage - 2

/-- The descending attachment walk (lines 87-95): starting from a section,
repeatedly take `children[-1]` `d` times, then append the new section to the
node reached.  `children[-1]` of an empty list raises IndexError (`none`). -/
def insertAt : Section → Nat → Section → Option Section
  | s, 0, c => some { s with children := s.children ++ [c] }
  | s, Nat.succ d, c =>
    match s.children.getLast? with
    | none => none
    | some lc =>
      (insertAt lc d c).map
        (fun nl => { s with children := s.children.dropLast ++ [nl] })

/-- Lines 84-95: a level-1 section is appended directly to the root;
otherwise the code takes `root.children[-1]` (IndexError if the root has no
children) and descends into the last child while `parent_lvl > 1`, that is
`(level - 2).toNat` further times, appending at the node reached. -/
def attach (root : Section) (level : Int) (sect : Section) : Option Section :=
  if level = 1 then
    some { root with children := root.children ++ [sect] }
  else
    match root.children.getLast? with
    | none => none
    | some top =>
      (insertAt top (level - 2).toNat sect).map
        (fun newTop => { root with children := root.children.dropLast ++ [newTop] })

/-- The body of the `for` loop of `toc_tree` for the entry at index `i`. -/
def tocStep (toc : List OutlineEntry) (maxPage : Int) (root : Section)
    (i : Nat) (e : OutlineEntry) : Option Section :=
  let lastPage := lastPageFor toc i e.level maxPage
  let pgn : Pager := ⟨e.startPage - 1, lastPage, e.startPage - 1⟩
  let sect : Section := ⟨e.title, pgn, []⟩
  attach root e.level sect

/-- The `for (index, (level, title, start_page, *extra)) in enumerate(toc_info)`
loop; an uncaught IndexError anywhere aborts the whole build. -/
def tocBuild (toc : List OutlineEntry) (maxPage : Int) :
    List (Nat × OutlineEntry) → Section → Option Section
  | [], root => some root
  | (i, e) :: rest, root =>
    match tocStep toc maxPage root i e with
    | none => none
    | some root' => tocBuild toc maxPage rest root'

/-- FitzDocument.toc_tree (mu/__init__.py lines 64-96).  `totalPages` is
`len(self)`; the root spans `[0, len(self) - 1]`. -/
def toc_tree (toc : List OutlineEntry) (docTitle : String)
    (totalPages : Int) : Option Section :=
  tocBuild toc (totalPages - 1) (enumFrom 0 toc)
    ⟨docTitle, ⟨0, totalPages - 1, 0⟩, []⟩

/-- The 50-page scenario outline from the specification. -/
def scenarioOutline : List OutlineEntry :=
  [⟨1, "Intro", 1⟩, ⟨1, "Ch1", 3⟩, ⟨2, "Ch1.1", 5⟩, ⟨1, "Ch2", 12⟩]

/-- The three-sibling outline of property P2 of the specification. -/
def siblingOutline : List OutlineEntry :=
  [⟨1, "A", 1⟩, ⟨1, "B", 10⟩, ⟨1, "C", 20⟩]

mutual

/-- Depth of the rightmost (last-child) chain of a section: the number of
`children[-1]` steps the attachment walk can take before hitting an empty
children list. -/
def spineDepth : Section → Nat
  | ⟨_, _, cs⟩ => spineDepthList cs

/-- Depth of the rightmost chain of a children list. -/
def spineDepthList : List Section → Nat
  | [] => 0
  | [c] => spineDepth c + 1
  | _ :: c :: cs => spineDepthList (c :: cs)

end

/-- Levels form a valid depth-first chain after an entry of level `prev`:
each level is at least 1 and at most one more than its predecessor. -/
def levelsChain (prev : Int) : List OutlineEntry → Bool
  | [] => true
  | f :: rest =>
    (decide (1 ≤ f.level) && decide (f.level ≤ prev + 1)) &&
      levelsChain f.level rest

/-- A well-nested outline: empty, or starting at level 1 with each later
entry's level between 1 and one more than its predecessor's. -/
def wellNested : List OutlineEntry → Bool
  | [] => true
  | e :: rest => (e.level == 1) && levelsChain e.level rest

mutual

/-- Predicate `p` holds of the pager of every section of the tree. -/
def secAll (p : Pager → Bool) : Section → Bool
  | ⟨_, pg, cs⟩ => p pg && secAllList p cs

/-- Predicate `p` holds of every pager in a list of section trees. -/
def secAllList (p : Pager → Bool) : List Section → Bool
  | [] => true
  | c :: cs => secAll p c && secAllList p cs

end

/-- The Pager invariant of the data model: `first ≤ current ≤ last`. -/
def pagerOK (pg : Pager) : Bool :=
  decide (pg.first ≤ pg.current) && decide (pg.current ≤ pg.last)

/-- SemanticElement: a typed span of document text with character offsets
`[start, stop)` in the displayed flow.  Kinds are coded as naturals. -/
structure SemanticElement where
  kind : Nat
  start : Nat
  stop : Nat
deriving Repr, DecidableEq

/-- Modelled from the spec: `EBookReader.get_semantic_element` is not among
the sources under verification (only its caller in gui/book_viewer is).  Per
section 4.2 it scans the document-ordered element sequence for the nearest
element matching the requested kind filter strictly after `pos` (forward) or
ending at or before `pos` (backward), returning `((start, stop), kind)` or
`None`. -/
def locate (es : List SemanticElement) (f : Nat → Bool) (forward : Bool)
    (pos : Nat) : Option ((Nat × Nat) × Nat) :=
  if forward then
    (es.find? (fun e => f e.kind && decide (pos < e.start))).map
      (fun e => ((e.start, e.stop), e.kind))
  else
    ((es.filter (fun e => f e.kind && decide (e.stop ≤ pos))).getLast?).map
      (fun e => ((e.start, e.stop), e.kind))

/-- Caller state used by `navigate_to_structural_element`: the insertion
point of the content text control, and the memento
`__latest_structured_navigation_position` (initialized to `None` on line 238,
set to `(current_insertion_point, pos)` on line 588). -/
structure NavState where
  pos : Nat
  memento : Option (Nat × ((Nat × Nat) × Nat))
deriving Repr, DecidableEq

/-- navigate_to_structural_element (gui/book_viewer lines 572-620), reduced
to its navigation core: look up the nearest element from the insertion point;
if nothing is found announce "no next/previous" and leave all state alone; if
the `(from_position, result)` pair equals the memento, set the insertion
point to the end of the found range and re-issue the same request (the
unbounded Python recursion is modelled with fuel); otherwise store the new
memento and move the insertion point to the start of the found range (the
exact-range presentation policy). -/
def navigate (es : List SemanticElement) (f : Nat → Bool) (forward : Bool) :
    Nat → NavState → Option ((Nat × Nat) × Nat) × NavState
  | 0, s => (none, s)
  | fuel + 1, s =>
    match locate es f forward s.pos with
    | none => (none, s)
    | some r =>
      if s.memento = some (s.pos, r) then
        navigate es f forward fuel { s with pos := r.1.2 }
      else
        (some r, ⟨r.1.1, some (s.pos, r)⟩)

/-- Repeated forward navigation presses: thread the state through `n + 1`
calls of `navigate` and return the result of the last call. -/
def navRepeat (es : List SemanticElement) (f : Nat → Bool) (fuel : Nat) :
    Nat → NavState → Option ((Nat × Nat) × Nat) × NavState
  | 0, s => navigate es f true fuel s
  | n + 1, s => navRepeat es f fuel n (navigate es f true fuel s).2

/-- Number of elements still qualifying for a forward search from `pos`. -/
def qcount (es : List SemanticElement) (f : Nat → Bool) (pos : Nat) : Nat :=
  (es.filter (fun e => f e.kind && decide (pos < e.start))).length

/-- Viewer-level state relevant to the memento lifecycle: insertion point,
memento, and the identifier of the reader's active section. -/
structure ViewerState where
  pos : Nat
  memento : Option (Nat × ((Nat × Nat) × Nat))
  activeSection : Nat
deriving Repr, DecidableEq

/-- BookViewerWindow.__init__ line 238 sets
`self.__latest_structured_navigation_position = None`. -/
def initialViewerState : ViewerState := ⟨0, none, 0⟩

/-- onTOCItemClick (gui/book_viewer lines 534-539): sets the reader's active
section to the clicked item and moves the reading position via
`go_to_first_of_section` (a reader collaborator outside the verified sources,
abstracted as the target position).  The handler does not assign
`__latest_structured_navigation_position`; no other code in the module
assigns it outside `__init__` and `navigate_to_structural_element`. -/
def onTOCItemClick (st : ViewerState) (sect : Nat) (target : Nat) :
    ViewerState :=
  { st with activeSection := sect, pos := target }

/-- Speech options of the piper TTS system: voice key and prosody settings.
`PiperTextToSpeechSystem` lives outside the verified sources; its
voice/rate/pitch/volume properties read and write these fields, and
`speech_options.copy()` is modelled by the value itself. -/
structure SpeechOptions where
  voice : String
  pitch : Int
  rate : Int
  volume : Int
deriving Repr, DecidableEq

/-- Speech elements consumed by `speak_utterance`: the `(kind, content)`
pairs of the utterance.  Pause contents carry the millisecond value after the
`PAUSE_VALUE_MAP` lookup; prosody contents carry the pitch/rate/volume
values after the `RATE_VALUE_MAP`/`VOLUME_VALUE_MAP` lookups, `none` for
"not set". -/
inductive SpeechElement
  | text (content : String)
  | sentence (content : String)
  | bookmark (name : String)
  | pause (ms : Int)
  | start_voice (id : String)
  | end_voice
  | start_prosody (pitch rate volume : Option Int)
  | end_prosody
  | audio (uri : String)
deriving Repr, DecidableEq

/-- Tasks wrapped in `ProcessPiperTask` and put on the background queue;
`create_speech_task` snapshots the current speech options. -/
inductive PiperTask
  | speech (content : String) (opts : SpeechOptions)
  | bookmark (name : String)
  | brk (ms : Int)
deriving Repr, DecidableEq

/-- Items put on the background queue by `speak_utterance`. -/
inductive QueueItem
  | audioFile (uri : String)
  | process (task : Option PiperTask)
  | doneSpeaking
deriving Repr, DecidableEq

/-- Mutable state of the `for element in utterance` loop of
`speak_utterance`: the TTS speech options, the local variables `old_voice`
and `old_prosody`, and the queue items put so far. -/
structure SpeakState where
  opts : SpeechOptions
  old_voice : Option String
  old_prosody : Option Int × Option Int × Option Int
  queue : List QueueItem
deriving Repr, DecidableEq

/-- Membership in Python's `string.punctuation + string.whitespace`, by
character code. -/
def isPunctWs (c : Char) : Bool :=
  let n := c.toNat
  (33 ≤ n && n ≤ 47) || (58 ≤ n && n ≤ 64) || (91 ≤ n && n ≤ 96) ||
    (123 ≤ n && n ≤ 126) || n == 32 || n == 9 || n == 10 || n == 11 ||
    n == 12 || n == 13

/-- Python `content.strip(string.punctuation + string.whitespace)` is empty
exactly when every character of `content` is in that set. -/
def isOnlyPunctWs (s : String) : Bool := s.toList.all isPunctWs

/-- One iteration of the `for element in utterance` loop of
`speak_utterance` (piper/__init__.py lines 241-285). -/
def speakElement (s : SpeakState) : SpeechElement → SpeakState
  | .text content =>
    if isOnlyPunctWs content then s
    else { s with
      queue := s.queue ++ [.process (some (.speech content s.opts))] }
  | .sentence content =>
    if isOnlyPunctWs content then s
    else { s with
      queue := s.queue ++ [.process (some (.speech content s.opts))] }
  | .bookmark name =>
    { s with queue := s.queue ++ [.process (some (.bookmark name))] }
  | .pause ms =>
    let task : Option PiperTask := if ms ≠ 0 then some (.brk ms) else none
    { s with queue := s.queue ++ [.process task] }
  | .start_voice id =>
    { s with old_voice := some s.opts.voice,
             opts := { s.opts with voice := id },
             queue := s.queue ++ [.process none] }
  | .end_voice =>
    let opts' := match s.old_voice with
      | some v => if v ≠ "" then { s.opts with voice := v } else s.opts
      | none => s.opts
    { s with opts := opts', queue := s.queue ++ [.process none] }
  | .start_prosody pitch rate volume =>
    let op := (some s.opts.pitch, some s.opts.rate, some s.opts.volume)
    let o1 := match pitch with
      | some p => { s.opts with pitch := p }
      | none => s.opts
    let o2 := match rate with
      | some r => { o1 with rate := r }
      | none => o1
    let o3 := match volume with
      | some v => { o2 with volume := v }
      | none => o2
    { s with old_prosody := op, opts := o3,
             queue := s.queue ++ [.process none] }
  | .end_prosody =>
    let o1 := match s.old_prosody.1 with
      | some p => { s.opts with pitch := p }
      | none => s.opts
    let o2 := match s.old_prosody.2.1 with
      | some r => { o1 with rate := r }
      | none => o1
    let o3 := match s.old_prosody.2.2 with
      | some v => { o2 with volume := v }
      | none => o2
    { s with opts := o3, queue := s.queue ++ [.process none] }
  | .audio uri => { s with queue := s.queue ++ [.audioFile uri] }

/-- PiperSpeechEngine.speak_utterance (piper/__init__.py lines 236-292):
copy the speech options on entry, run the element loop, enqueue
`DoneSpeaking`, and restore `self.tts.speech_options` from the saved copy. -/
def speak_utterance (opts0 : SpeechOptions)
    (utterance : List SpeechElement) : SpeakState :=
  let s0 : SpeakState := ⟨opts0, none, (none, none, none), []⟩
  let s1 := utterance.foldl speakElement s0
  let s2 := { s1 with queue := s1.queue ++ [QueueItem.doneSpeaking] }
  { s2 with opts := opts0 }

lemma spineDepthList_concat (cs : List Section) (c : Section) :
    spineDepthList (cs ++ [c]) = spineDepth c + 1 := by
  induction cs with
  | nil => rfl
  | cons a rest ih =>
    cases rest with
    | nil => rfl
    | cons b rest' => simpa [spineDepthList] using ih

lemma spineDepthList_getLast (cs : List Section) (lc : Section)
    (h : cs.getLast? = some lc) : spineDepthList cs = spineDepth lc + 1 := by
  induction cs with
  | nil => simp at h
  | cons a rest ih =>
    cases rest with
    | nil =>
      simp [List.getLast?] at h
      subst h; rfl
    | cons b rest' =>
      rw [List.getLast?_cons_cons] at h
      simpa [spineDepthList] using ih h

lemma getLast?_of_spineDepth_pos (s : Section) (h : 0 < spineDepth s) :
    ∃ lc, s.children.getLast? = some lc ∧ spineDepth s = spineDepth lc + 1 := by
  obtain ⟨t, pg, cs⟩ := s
  cases cs with
  | nil => simp [spineDepth, spineDepthList] at h
  | cons a rest =>
    have hne : (a :: rest : List Section) ≠ [] := by simp
    have hlast := List.getLast?_eq_getLast (a :: rest) hne
    exact ⟨(a :: rest).getLast hne, hlast, by
      simpa [spineDepth] using spineDepthList_getLast _ _ hlast⟩

lemma insertAt_isSome (d : Nat) :
    ∀ (s c : Section), d ≤ spineDepth s → (insertAt s d c).isSome = true := by
  induction d with
  | zero => intro s c _; simp [insertAt]
  | succ d ih =>
    intro s c hd
    obtain ⟨lc, hlc, hdep⟩ := getLast?_of_spineDepth_pos s (by omega)
    have : d ≤ spineDepth lc := by omega
    simp only [insertAt, hlc]
    have := ih lc c this
    cases hins : insertAt lc d c with
    | none => rw [hins] at this; simp at this
    | some nl => simp

lemma insertAt_spineDepth (d : Nat) :
    ∀ (s c s' : Section), insertAt s d c = some s' → c.children = [] →
      spineDepth s' = d + 1 := by
  induction d with
  | zero =>
    intro s c s' h hc
    simp only [insertAt, Option.some.injEq] at h
    subst h
    obtain ⟨t, pg, cs⟩ := s
    obtain ⟨tc, pgc, csc⟩ := c
    simp only at hc
    subst hc
    simp [spineDepth, spineDepthList, spineDepthList_concat]
  | succ d ih =>
    intro s c s' h hc
    simp only [insertAt] at h
    cases hlc : s.children.getLast? with
    | none => rw [hlc] at h; simp at h
    | some lc =>
      rw [hlc] at h
      simp only [Option.map_eq_some'] at h
      obtain ⟨nl, hins, hs'⟩ := h
      subst hs'
      obtain ⟨t, pg, cs⟩ := s
      simp only [spineDepth, spineDepthList_concat]
      exact congrArg (· + 1) (ih lc c nl hins hc)

lemma attach_level_one (root sect : Section) (hs : sect.children = []) :
    attach root 1 sect = some { root with children := root.children ++ [sect] } ∧
      spineDepth { root with children := root.children ++ [sect] } = 1 := by
  constructor
  · simp [attach]
  · obtain ⟨t, pg, cs⟩ := root
    obtain ⟨ts, pgs, css⟩ := sect
    simp only at hs
    subst hs
    simp [spineDepth, spineDepthList, spineDepthList_concat]

lemma attach_deep (root sect : Section) (L : Int) (hL1 : L ≠ 1)
    (hL2 : 2 ≤ L) (hs : sect.children = [])
    (hdep : (L - 2).toNat + 1 ≤ spineDepth root) :
    ∃ root', attach root L sect = some root' ∧ spineDepth root' = L.toNat := by
  obtain ⟨top, htop, hsd⟩ := getLast?_of_spineDepth_pos root (by omega)
  have hins : (insertAt top (L - 2).toNat sect).isSome = true :=
    insertAt_isSome _ _ _ (by omega)
  cases h : insertAt top (L - 2).toNat sect with
  | none => rw [h] at hins; simp at hins
  | some newTop =>
    refine ⟨{ root with children := root.children.dropLast ++ [newTop] }, ?_, ?_⟩
    · simp [attach, hL1, htop, h]
    · have hnew : spineDepth newTop = (L - 2).toNat + 1 :=
        insertAt_spineDepth _ _ _ _ h hs
      obtain ⟨t, pg, cs⟩ := root
      simp only [spineDepth, spineDepthList_concat]
      omega

lemma tocBuild_wellNested_isSome (toc : List OutlineEntry) (maxPage : Int) :
    ∀ (l : List OutlineEntry) (i : Nat) (root : Section) (prev : Int),
      1 ≤ prev → spineDepth root = prev.toNat → levelsChain prev l = true →
      (tocBuild toc maxPage (enumFrom i l) root).isSome = true := by
  intro l
  induction l with
  | nil => intro i root prev _ _ _; simp [enumFrom, tocBuild]
  | cons f rest ih =>
    intro i root prev hprev hdep hchain
    simp only [levelsChain, Bool.and_eq_true, decide_eq_true_eq] at hchain
    obtain ⟨⟨hf1, hfle⟩, hchain'⟩ := hchain
    simp only [enumFrom, tocBuild, tocStep]
    by_cases hL : f.level = 1
    · obtain ⟨hat, hsd⟩ := attach_level_one root ⟨f.title, _, []⟩ rfl
      rw [hL]
      rw [hat]
      exact ih (i + 1) _ f.level (by omega)
        (by rw [hL]; simpa using hsd) hchain'
    · have hL2 : 2 ≤ f.level := by
        rcases lt_or_ge f.level 2 with h | h
        · exact absurd (by omega : f.level = 1) hL
        · exact h
      obtain ⟨root', hat, hsd⟩ := attach_deep root ⟨f.title, _, []⟩ f.level hL hL2
        rfl (by omega)
      rw [hat]
      exact ih (i + 1) root' f.level (by omega) hsd hchain'

lemma secAllList_eq_all (p : Pager → Bool) (l : List Section) :
    secAllList p l = true ↔ ∀ c ∈ l, secAll p c = true := by
  induction l with
  | nil => simp [secAllList]
  | cons a t ih => simp [secAllList, ih]

lemma secAllList_append (p : Pager → Bool) (l₁ l₂ : List Section) :
    secAllList p (l₁ ++ l₂) = true ↔
      secAllList p l₁ = true ∧ secAllList p l₂ = true := by
  simp only [secAllList_eq_all, List.mem_append]
  constructor
  · exact fun h => ⟨fun c hc => h c (Or.inl hc), fun c hc => h c (Or.inr hc)⟩
  · rintro ⟨h₁, h₂⟩ c (hc | hc)
    · exact h₁ c hc
    · exact h₂ c hc

lemma secAllList_getLast (p : Pager → Bool) (cs : List Section) (lc : Section)
    (h : cs.getLast? = some lc) (hall : secAllList p cs = true) :
    secAll p lc = true := by
  induction cs with
  | nil => simp at h
  | cons a rest ih =>
    cases rest with
    | nil =>
      simp [List.getLast?] at h
      subst h
      exact ((secAllList_eq_all p [a]).mp hall) a (by simp)
    | cons b rest' =>
      rw [List.getLast?_cons_cons] at h
      exact ih h (by
        have := (secAllList_eq_all p (a :: b :: rest')).mp hall
        exact (secAllList_eq_all p (b :: rest')).mpr
          (fun c hc => this c (List.mem_cons_of_mem a hc)))

lemma secAllList_dropLast (p : Pager → Bool) (cs : List Section)
    (hall : secAllList p cs = true) : secAllList p cs.dropLast = true := by
  rw [secAllList_eq_all] at hall ⊢
  exact fun c hc => hall c ((List.dropLast_sublist cs).subset hc)

lemma insertAt_secAll (p : Pager → Bool) (d : Nat) :
    ∀ (s c s' : Section), insertAt s d c = some s' →
      secAll p s = true → secAll p c = true → secAll p s' = true := by
  induction d with
  | zero =>
    intro s c s' h hs hc
    simp only [insertAt, Option.some.injEq] at h
    subst h
    obtain ⟨t, pg, cs⟩ := s
    simp only [secAll, Bool.and_eq_true] at hs ⊢
    exact ⟨hs.1, (secAllList_append p cs [c]).mpr
      ⟨hs.2, by simp [secAllList, hc]⟩⟩
  | succ d ih =>
    intro s c s' h hs hc
    simp only [insertAt] at h
    cases hlc : s.children.getLast? with
    | none => rw [hlc] at h; simp at h
    | some lc =>
      rw [hlc] at h
      simp only [Option.map_eq_some'] at h
      obtain ⟨nl, hins, hs'⟩ := h
      subst hs'
      obtain ⟨t, pg, cs⟩ := s
      simp only [secAll, Bool.and_eq_true] at hs ⊢
      refine ⟨hs.1, (secAllList_append p _ [nl]).mpr ⟨?_, ?_⟩⟩
      · exact secAllList_dropLast p cs hs.2
      · have hlcall : secAll p lc = true := secAllList_getLast p cs lc hlc hs.2
        simp [secAllList, ih lc c nl hins hlcall hc]

lemma attach_secAll (p : Pager → Bool) (root sect root' : Section) (L : Int)
    (h : attach root L sect = some root') (hr : secAll p root = true)
    (hsect : secAll p sect = true) : secAll p root' = true := by
  simp only [attach] at h
  by_cases hL : L = 1
  · rw [if_pos hL] at h
    simp only [Option.some.injEq] at h
    subst h
    obtain ⟨t, pg, cs⟩ := root
    simp only [secAll, Bool.and_eq_true] at hr ⊢
    exact ⟨hr.1, (secAllList_append p cs [sect]).mpr
      ⟨hr.2, by simp [secAllList, hsect]⟩⟩
  · rw [if_neg hL] at h
    cases hlc : root.children.getLast? with
    | none => rw [hlc] at h; simp at h
    | some top =>
      rw [hlc] at h
      simp only [Option.map_eq_some'] at h
      obtain ⟨newTop, hins, hs'⟩ := h
      subst hs'
      obtain ⟨t, pg, cs⟩ := root
      simp only [secAll, Bool.and_eq_true] at hr ⊢
      refine ⟨hr.1, (secAllList_append p _ [newTop]).mpr ⟨?_, ?_⟩⟩
      · exact secAllList_dropLast p cs hr.2
      · have htop : secAll p top = true := secAllList_getLast p cs top hlc hr.2
        simp [secAllList, insertAt_secAll p _ top sect newTop hins htop hsect]

lemma pairwise_get?_drop {α : Type _} {R : α → α → Prop} :
    ∀ (l : List α) (i : Nat) (e f : α), l.Pairwise R →
      l.get? i = some e → f ∈ l.drop (i + 1) → R e f := by
  intro l
  induction l with
  | nil => intro i e f _ h; simp at h
  | cons a t ih =>
    intro i e f hp he hf
    rw [List.pairwise_cons] at hp
    cases i with
    | zero =>
      simp only [List.get?] at he
      injection he with he
      subst he
      exact hp.1 f (by simpa using hf)
    | succ i =>
      exact ih i e f hp.2 (by simpa using he) (by simpa using hf)

lemma tocStep_pager_ok (toc : List OutlineEntry) (total : Int) (i : Nat)
    (e : OutlineEntry)
    (hpair : toc.Pairwise (fun a b => a.startPage < b.startPage))
    (hrange : ∀ x ∈ toc, 1 ≤ x.startPage ∧ x.startPage ≤ total)
    (hi : toc.get? i = some e) :
    pagerOK ⟨e.startPage - 1, lastPageFor toc i e.level (total - 1),
      e.startPage - 1⟩ = true := by
  have hmem : e ∈ toc := List.get?_mem hi
  simp only [pagerOK, Bool.and_eq_true, decide_eq_true_eq]
  cases hnx : nextSibling toc i e.level with
  | none =>
    have := hrange e hmem
    simp only [lastPageFor, hnx]
    exact ⟨le_rfl, by omega⟩
  | some nx =>
    have hnxd : nx ∈ toc.drop (i + 1) :=
      List.mem_of_find?_eq_some hnx
    have hlt : e.startPage < nx.startPage :=
      pairwise_get?_drop toc i e nx hpair hi hnxd
    simp only [lastPageFor, hnx]
    exact ⟨le_rfl, by omega⟩

lemma tocBuild_secAll (toc : List OutlineEntry) (total : Int)
    (hpair : toc.Pairwise (fun a b => a.startPage < b.startPage))
    (hrange : ∀ x ∈ toc, 1 ≤ x.startPage ∧ x.startPage ≤ total) :
    ∀ (l : List (Nat × OutlineEntry)) (root out : Section),
      (∀ q ∈ l, toc.get? q.1 = some q.2) →
      secAll pagerOK root = true →
      tocBuild toc (total - 1) l root = some out →
      secAll pagerOK out = true := by
  intro l
  induction l with
  | nil =>
    intro root out _ hr h
    simp only [tocBuild, Option.some.injEq] at h
    subst h; exact hr
  | cons q rest ih =>
    intro root out hq hr h
    obtain ⟨i, e⟩ := q
    simp only [tocBuild, tocStep] at h
    cases hat : attach root e.level
        ⟨e.title, ⟨e.startPage - 1, lastPageFor toc i e.level (total - 1),
          e.startPage - 1⟩, []⟩ with
    | none => rw [hat] at h; simp at h
    | some root' =>
      rw [hat] at h
      have hie : toc.get? i = some e := hq (i, e) (by simp)
      have hsect : secAll pagerOK
          ⟨e.title, ⟨e.startPage - 1, lastPageFor toc i e.level (total - 1),
            e.startPage - 1⟩, []⟩ = true := by
        simp [secAll, secAllList,
          tocStep_pager_ok toc total i e hpair hrange hie]
      exact ih root' out (fun q hq' => hq q (by simp [hq']))
        (attach_secAll pagerOK root _ root' e.level hat hr hsect) h

lemma mem_enumFrom {α : Type _} :
    ∀ (l : List α) (k i : Nat) (a : α), (i, a) ∈ enumFrom k l →
      k ≤ i ∧ l.get? (i - k) = some a := by
  intro l
  induction l with
  | nil => intro k i a h; simp [enumFrom] at h
  | cons b t ih =>
    intro k i a h
    simp only [enumFrom, List.mem_cons, Prod.mk.injEq] at h
    rcases h with ⟨hik, hab⟩ | h
    · subst hik; subst hab
      simp
    · obtain ⟨hk, hget⟩ := ih (k + 1) i a h
      refine ⟨by omega, ?_⟩
      have : i - k = (i - (k + 1)) + 1 := by omega
      rw [this]
      simpa using hget

/-- C1 (counterexample): the claim says `toc_tree` completes without raising
for every outline list, including one whose first entry has level > 1.  It is
false: on the single-entry outline `[(2, "X", 1)]` the attachment walk
evaluates `root.children[-1]` on an empty list, an uncaught IndexError
(modelled as `none`). -/
theorem toc_tree_level_gap_raises : toc_tree [⟨2, "X", 1⟩] "doc" 10 = none := rfl

/-- C1 (amended): for every well-nested outline (first entry at level 1, each
later entry's level between 1 and its predecessor's level plus one),
`toc_tree` completes without raising; malformed outlines can raise
IndexError. -/
theorem toc_tree_wellNested_isSome (toc : List OutlineEntry) (t : String)
    (n : Int) (h : wellNested toc = true) :
    (toc_tree toc t n).isSome = true := by
  cases toc with
  | nil => rfl
  | cons e rest =>
    simp only [wellNested, Bool.and_eq_true, beq_iff_eq] at h
    obtain ⟨hlev, hchain⟩ := h
    simp only [toc_tree, enumFrom, tocBuild, tocStep]
    rw [hlev] at hchain ⊢
    obtain ⟨hat, hsd⟩ :=
      attach_level_one ⟨t, ⟨0, n - 1, 0⟩, []⟩
        ⟨e.title, ⟨e.startPage - 1, lastPageFor (e :: rest) 0 1 (n - 1),
          e.startPage - 1⟩, []⟩ rfl
    rw [hat]
    exact tocBuild_wellNested_isSome (e :: rest) (n - 1) rest (0 + 1) _ 1
      le_rfl (by simpa using hsd) hchain

/-- C1 (witness): the well-nested outline `[(1,"a",1), (2,"b",2)]` builds
successfully. -/
theorem toc_tree_wellNested_isSome_witness :
    (toc_tree [⟨1, "a", 1⟩, ⟨2, "b", 2⟩] "d" 9).isSome = true :=
  toc_tree_wellNested_isSome [⟨1, "a", 1⟩, ⟨2, "b", 2⟩] "d" 9 (by decide)

/-- C2 (counterexample): in the 50-page scenario the claim gives "Ch1.1" the
page range [4, 10].  The code's sibling scan looks for the next entry of the
exact same level; "Ch1.1" is the only level-2 entry, so its last page is
`total_pages - 1 = 49`, not 10. -/
theorem toc_tree_scenario_ch11_not_spec :
    ((toc_tree scenarioOutline "doc" 50).bind fun r =>
      (r.children[1]?).bind fun c => (c.children[0]?).map fun g => g.pager) ≠
      some ⟨4, 10, 4⟩ := by decide

/-- C2 (amended): in the 50-page scenario the root has 3 children, "Ch1" has
the single child "Ch1.1", "Ch1" spans [2, 10], "Ch1.1" spans [4, 49] and
"Ch2" spans [11, 49]. -/
theorem toc_tree_scenario_eval :
    toc_tree scenarioOutline "doc" 50 =
      some ⟨"doc", ⟨0, 49, 0⟩,
        [⟨"Intro", ⟨0, 1, 0⟩, []⟩,
         ⟨"Ch1", ⟨2, 10, 2⟩, [⟨"Ch1.1", ⟨4, 49, 4⟩, []⟩]⟩,
         ⟨"Ch2", ⟨11, 49, 11⟩, []⟩]⟩ := rfl

/-- C4 (counterexample): the claim gives section "A" the page range [0, 7].
The code bounds a section by `next_sibling_start_page - 2`; with "B" starting
on 1-based page 10 that is 8, not 7. -/
theorem toc_tree_siblings_not_spec :
    ((toc_tree siblingOutline "d" 30).bind fun r =>
      (r.children[0]?).map fun a => a.pager) ≠ some ⟨0, 7, 0⟩ := by decide

/-- C4 (amended): over 30 pages, "A" spans [0, 8], "B" spans [9, 18] and "C"
spans [19, 29]. -/
theorem toc_tree_siblings_eval :
    toc_tree siblingOutline "d" 30 =
      some ⟨"d", ⟨0, 29, 0⟩,
        [⟨"A", ⟨0, 8, 0⟩, []⟩, ⟨"B", ⟨9, 18, 9⟩, []⟩,
         ⟨"C", ⟨19, 29, 19⟩, []⟩]⟩ := rfl

/-- C3 (counterexample): the claim asserts `first ≤ current ≤ last` for every
section of every outline.  With the outline `[(1,"A",5), (1,"B",2)]` (start
pages not increasing) section "A" gets the pager (first 4, last 0, current 4),
violating `current ≤ last`. -/
theorem toc_tree_nonmonotone_pager_violation :
    ((toc_tree [⟨1, "A", 5⟩, ⟨1, "B", 2⟩] "d" 50).bind fun r =>
      (r.children[0]?).map fun a => a.pager) = some ⟨4, 0, 4⟩ ∧
      pagerOK ⟨4, 0, 4⟩ = false := by
  constructor
  · rfl
  · rfl

/-- C3 (amended): when the outline start pages are strictly increasing and
each lies between 1 and the page count (and the document has at least one
page), every section of the tree built by `toc_tree` satisfies
`first ≤ current ≤ last`.  For arbitrary outlines the invariant can fail, and
a child's range need not be contained in its parent's range even for
well-formed outlines (a last child extends to the end of the document). -/
theorem toc_tree_pager_invariant (toc : List OutlineEntry) (t : String)
    (total : Int)
    (hpair : toc.Pairwise (fun a b => a.startPage < b.startPage))
    (hrange : ∀ x ∈ toc, 1 ≤ x.startPage ∧ x.startPage ≤ total)
    (htot : 1 ≤ total) (root : Section)
    (h : toc_tree toc t total = some root) :
    secAll pagerOK root = true := by
  refine tocBuild_secAll toc total hpair hrange (enumFrom 0 toc)
    ⟨t, ⟨0, total - 1, 0⟩, []⟩ root ?_ ?_ h
  · intro q hq
    have := mem_enumFrom toc 0 q.1 q.2 (by simpa using hq)
    simpa using this.2
  · simp only [secAll, secAllList, pagerOK, Bool.and_eq_true,
      decide_eq_true_eq]
    exact ⟨⟨le_rfl, by omega⟩, trivial⟩

lemma find?_index_spec {α : Type _} (p : α → Bool) :
    ∀ (l : List α) (f : α), l.find? p = some f →
      ∃ j, l.get? j = some f ∧ p f = true ∧
        ∀ k g, k < j → l.get? k = some g → p g = false := by
  intro l
  induction l with
  | nil => intro f h; simp at h
  | cons a t ih =>
    intro f h
    by_cases hpa : p a = true
    · rw [List.find?_cons_of_pos _ hpa] at h
      injection h with h
      subst h
      exact ⟨0, rfl, hpa, fun k g hk _ => absurd hk (by omega)⟩
    · rw [List.find?_cons_of_neg _ (by simpa using hpa)] at h
      obtain ⟨j, hg, hp, hmin⟩ := ih f h
      refine ⟨j + 1, by simpa using hg, hp, ?_⟩
      intro k g hk hkg
      cases k with
      | zero =>
        simp only [List.get?] at hkg
        injection hkg with hkg
        subst hkg
        simpa using hpa
      | succ k => exact hmin k g (by omega) (by simpa using hkg)

lemma get?_drop_add {α : Type _} :
    ∀ (l : List α) (n k : Nat), (l.drop n).get? k = l.get? (n + k) := by
  intro l
  induction l with
  | nil => intro n k; simp
  | cons a t ih =>
    intro n k
    cases n with
    | zero => simp
    | succ n => simp [Nat.succ_add, ih n k]

/-- C5 (theorem): the last page of the entry at index `i` is determined by
scanning forward for the first later entry of exactly the same level: if such
an entry `f` exists at index `j` (all strictly-between entries having a
different level), the last page is `f.startPage - 2`; if no later entry has
this level, the last page is `total - 1`. -/
theorem toc_tree_last_page_sibling_scan (toc : List OutlineEntry) (i : Nat)
    (e : OutlineEntry) (total : Int) (_hi : toc.get? i = some e) :
    (∀ f, nextSibling toc i e.level = some f →
      ∃ j, i < j ∧ toc.get? j = some f ∧ f.level = e.level ∧
        (∀ k g, i < k → k < j → toc.get? k = some g → g.level ≠ e.level) ∧
        lastPageFor toc i e.level (total - 1) = f.startPage - 2) ∧
    (nextSibling toc i e.level = none →
      (∀ k g, i < k → toc.get? k = some g → g.level ≠ e.level) ∧
      lastPageFor toc i e.level (total - 1) = total - 1) := by
  constructor
  · intro f hf
    obtain ⟨j', hg, hp, hmin⟩ := find?_index_spec _ _ f hf
    refine ⟨i + 1 + j', by omega, ?_, by simpa using hp, ?_, ?_⟩
    · rw [← get?_drop_add toc (i + 1) j']
      exact hg
    · intro k g hik hkj hkg
      have hk' : k = i + 1 + (k - (i + 1)) := by omega
      have := hmin (k - (i + 1)) g (by omega)
        (by rw [get?_drop_add toc (i + 1) (k - (i + 1)), ← hk']; exact hkg)
      simpa using this
    · simp [lastPageFor, nextSibling] at hf ⊢
      simp [lastPageFor, hf]
  · intro hn
    have hall := List.find?_eq_none.mp hn
    constructor
    · intro k g hik hkg
      have hmem : g ∈ toc.drop (i + 1) := by
        apply List.get?_mem (n := k - (i + 1))
        rw [get?_drop_add toc (i + 1) (k - (i + 1))]
        have hk' : i + 1 + (k - (i + 1)) = k := by omega
        rw [hk']
        exact hkg
      simpa using hall g hmem
    · simp [lastPageFor, hn]

/-- C5 (witness): in the outline `[(1,"a",1), (2,"b",3), (1,"c",7)]` the
sibling scan for the first entry skips the deeper level-2 entry and bounds the
last page by the start page of `(1,"c",7)`. -/
theorem toc_tree_last_page_sibling_scan_witness :
    ∃ j, 0 < j ∧
      [(⟨1, "a", 1⟩ : OutlineEntry), ⟨2, "b", 3⟩, ⟨1, "c", 7⟩].get? j =
        some ⟨1, "c", 7⟩ ∧
      (⟨1, "c", 7⟩ : OutlineEntry).level = (⟨1, "a", 1⟩ : OutlineEntry).level ∧
      (∀ k g, 0 < k → k < j →
        [(⟨1, "a", 1⟩ : OutlineEntry), ⟨2, "b", 3⟩, ⟨1, "c", 7⟩].get? k =
          some g → g.level ≠ (⟨1, "a", 1⟩ : OutlineEntry).level) ∧
      lastPageFor [⟨1, "a", 1⟩, ⟨2, "b", 3⟩, ⟨1, "c", 7⟩] 0
        (⟨1, "a", 1⟩ : OutlineEntry).level (20 - 1) =
        (⟨1, "c", 7⟩ : OutlineEntry).startPage - 2 :=
  (toc_tree_last_page_sibling_scan
    [⟨1, "a", 1⟩, ⟨2, "b", 3⟩, ⟨1, "c", 7⟩] 0 ⟨1, "a", 1⟩ 20 rfl).1
    ⟨1, "c", 7⟩ rfl

/-- C3 (witness): the pager invariant holds of the tree built from the
strictly increasing three-sibling outline over 30 pages. -/
theorem toc_tree_pager_invariant_witness :
    secAll pagerOK
      ⟨"d", ⟨0, 29, 0⟩,
        [⟨"A", ⟨0, 8, 0⟩, []⟩, ⟨"B", ⟨9, 18, 9⟩, []⟩,
         ⟨"C", ⟨19, 29, 19⟩, []⟩]⟩ = true :=
  toc_tree_pager_invariant siblingOutline "d" 30 (by decide) (by decide)
    (by decide) _ rfl

lemma navigate_succ (es : List SemanticElement) (f : Nat → Bool)
    (fwd : Bool) (fuel : Nat) (s : NavState) :
    navigate es f fwd (fuel + 1) s =
      match locate es f fwd s.pos with
      | none => (none, s)
      | some r =>
        if s.memento = some (s.pos, r) then
          navigate es f fwd fuel { s with pos := r.1.2 }
        else
          (some r, ⟨r.1.1, some (s.pos, r)⟩) := rfl

lemma locate_fwd_elem (es : List SemanticElement) (f : Nat → Bool)
    (pos : Nat) (r : (Nat × Nat) × Nat) (h : locate es f true pos = some r) :
    ∃ e, e ∈ es ∧ r = ((e.start, e.stop), e.kind) ∧ f e.kind = true ∧
      pos < e.start := by
  simp only [locate, if_true, Option.map_eq_some'] at h
  obtain ⟨e, hfind, hr⟩ := h
  have hmem := List.mem_of_find?_eq_some hfind
  have hp := List.find?_some hfind
  simp only [Bool.and_eq_true, decide_eq_true_eq] at hp
  exact ⟨e, hmem, hr.symm, hp.1, hp.2⟩

lemma length_filter_mono {α : Type _} (p q : α → Bool) :
    ∀ l : List α, (∀ x ∈ l, p x = true → q x = true) →
      (l.filter p).length ≤ (l.filter q).length := by
  intro l
  induction l with
  | nil => intro _; simp
  | cons a t ih =>
    intro h
    have ht := ih (fun x hx hp => h x (List.mem_cons_of_mem a hx) hp)
    by_cases hpa : p a = true
    · have hqa := h a (List.mem_cons_self a t) hpa
      rw [List.filter_cons, List.filter_cons, if_pos hpa, if_pos hqa]
      simpa using ht
    · rw [List.filter_cons, if_neg hpa, List.filter_cons]
      by_cases hqa : q a = true
      · rw [if_pos hqa]
        simp only [List.length_cons]
        omega
      · rw [if_neg hqa]
        exact ht

lemma length_filter_strict {α : Type _} (p q : α → Bool) :
    ∀ (l : List α) (x : α), (∀ y ∈ l, p y = true → q y = true) →
      x ∈ l → p x = false → q x = true →
      (l.filter p).length < (l.filter q).length := by
  intro l
  induction l with
  | nil => intro x _ hx; simp at hx
  | cons a t ih =>
    intro x h hx hpx hqx
    rcases List.mem_cons.mp hx with rfl | hx'
    · rw [List.filter_cons, List.filter_cons, if_neg (by simp [hpx]),
        if_pos hqx]
      simp only [List.length_cons]
      have := length_filter_mono p q t
        (fun y hy hp => h y (List.mem_cons_of_mem x hy) hp)
      omega
    · have hstrict := ih x
        (fun y hy hp => h y (List.mem_cons_of_mem a hy) hp) hx' hpx hqx
      rw [List.filter_cons, List.filter_cons]
      by_cases hpa : p a = true
      · rw [if_pos hpa, if_pos (h a (List.mem_cons_self a t) hpa)]
        simpa using hstrict
      · rw [if_neg hpa]
        by_cases hqa : q a = true
        · rw [if_pos hqa]
          simp only [List.length_cons]
          omega
        · rw [if_neg hqa]
          exact hstrict

lemma qcount_strict (es : List SemanticElement) (f : Nat → Bool)
    (e : SemanticElement) (pos pos' : Nat) (hmem : e ∈ es)
    (hf : f e.kind = true) (h1 : pos < e.start) (h2 : e.start ≤ pos') :
    qcount es f pos' < qcount es f pos := by
  refine length_filter_strict _ _ es e (fun y _ hy => ?_) hmem ?_ ?_
  · simp only [Bool.and_eq_true, decide_eq_true_eq] at hy ⊢
    exact ⟨hy.1, by omega⟩
  · simp only [Bool.and_eq_false_iff, decide_eq_false_iff_not]
    right
    omega
  · simp only [Bool.and_eq_true, decide_eq_true_eq]
    exact ⟨hf, h1⟩

lemma navigate_succ_fields (es : List SemanticElement) (f : Nat → Bool)
    (fwd : Bool) (fuel pos : Nat)
    (mem : Option (Nat × ((Nat × Nat) × Nat))) :
    navigate es f fwd (fuel + 1) ⟨pos, mem⟩ =
      match locate es f fwd pos with
      | none => (none, ⟨pos, mem⟩)
      | some r =>
        if mem = some (pos, r) then
          navigate es f fwd fuel ⟨r.1.2, mem⟩
        else
          (some r, ⟨r.1.1, some (pos, r)⟩) := rfl

lemma navigate_fwd_advance (es : List SemanticElement) (f : Nat → Bool)
    (wf : ∀ e ∈ es, e.start ≤ e.stop) (s : NavState)
    (r : (Nat × Nat) × Nat) (s' : NavState)
    (h : navigate es f true 2 s = (some r, s')) :
    s.pos < s'.pos ∧ qcount es f s'.pos < qcount es f s.pos := by
  obtain ⟨pos, mem⟩ := s
  rw [show (2 : Nat) = 1 + 1 from rfl, navigate_succ_fields] at h
  cases hl : locate es f true pos with
  | none =>
    rw [hl] at h
    have h' : ((none : Option ((Nat × Nat) × Nat)),
        (⟨pos, mem⟩ : NavState)) = (some r, s') := h
    simp at h'
  | some r0 =>
    rw [hl] at h
    have h' : (if mem = some (pos, r0) then
          navigate es f true 1 ⟨r0.1.2, mem⟩
        else (some r0, ⟨r0.1.1, some (pos, r0)⟩)) = (some r, s') := h
    obtain ⟨e, hmem, hre, hfe, hlt⟩ := locate_fwd_elem es f pos r0 hl
    by_cases hm : mem = some (pos, r0)
    · rw [if_pos hm] at h'
      have h2 : navigate es f true (0 + 1) ⟨r0.1.2, mem⟩ = (some r, s') := h'
      rw [navigate_succ_fields] at h2
      have hstop : pos < e.stop := lt_of_lt_of_le hlt (wf e hmem)
      have hr02 : r0.1.2 = e.stop := by rw [hre]
      rw [hr02] at h2
      cases hl2 : locate es f true e.stop with
      | none =>
        rw [hl2] at h2
        have h3 : ((none : Option ((Nat × Nat) × Nat)),
            (⟨e.stop, mem⟩ : NavState)) = (some r, s') := h2
        simp at h3
      | some r2 =>
        rw [hl2] at h2
        have h3 : (if mem = some (e.stop, r2) then
              navigate es f true 0 ⟨r2.1.2, mem⟩
            else (some r2, ⟨r2.1.1, some (e.stop, r2)⟩)) = (some r, s') := h2
        obtain ⟨e2, hmem2, hre2, hfe2, hlt2⟩ :=
          locate_fwd_elem es f e.stop r2 hl2
        rw [if_neg (by
          rw [hm]
          simp only [Option.some.injEq, Prod.mk.injEq, not_and]
          intro hps
          omega)] at h3
        injection h3 with h4 h5
        injection h4 with h4
        subst h4
        subst h5
        have hr21 : r2.1.1 = e2.start := by rw [hre2]
        refine ⟨?_, ?_⟩
        · show pos < (⟨r2.1.1, some (e.stop, r2)⟩ : NavState).pos
          rw [show (⟨r2.1.1, some (e.stop, r2)⟩ : NavState).pos = r2.1.1
            from rfl, hr21]
          omega
        · rw [show (⟨r2.1.1, some (e.stop, r2)⟩ : NavState).pos = r2.1.1
            from rfl, hr21]
          have ha : qcount es f e2.start < qcount es f e.stop :=
            qcount_strict es f e2 e.stop e2.start hmem2 hfe2 hlt2 le_rfl
          have hb : qcount es f e.stop < qcount es f pos :=
            qcount_strict es f e pos e.stop hmem hfe hlt (wf e hmem)
          exact lt_trans ha hb
    · rw [if_neg hm] at h'
      injection h' with h4 h5
      injection h4 with h4
      subst h4
      subst h5
      have hr01 : r0.1.1 = e.start := by rw [hre]
      constructor
      · show pos < (⟨r0.1.1, some (pos, r0)⟩ : NavState).pos
        rw [show (⟨r0.1.1, some (pos, r0)⟩ : NavState).pos = r0.1.1 from rfl,
          hr01]
        exact hlt
      · rw [show (⟨r0.1.1, some (pos, r0)⟩ : NavState).pos = r0.1.1 from rfl,
          hr01]
        exact qcount_strict es f e pos e.start hmem hfe hlt le_rfl

lemma navigate_fuel_indep (es : List SemanticElement) (f : Nat → Bool)
    (wf : ∀ e ∈ es, e.start ≤ e.stop) (n : Nat) (s : NavState) :
    navigate es f true (n + 2) s = navigate es f true 2 s := by
  obtain ⟨pos, mem⟩ := s
  rw [show n + 2 = (n + 1) + 1 from rfl, show (2 : Nat) = 1 + 1 from rfl,
    navigate_succ_fields, navigate_succ_fields]
  cases hl : locate es f true pos with
  | none => rfl
  | some r0 =>
    obtain ⟨e, hmem, hre, hfe, hlt⟩ := locate_fwd_elem es f pos r0 hl
    show (if mem = some (pos, r0) then
        navigate es f true (n + 1) ⟨r0.1.2, mem⟩
      else (some r0, ⟨r0.1.1, some (pos, r0)⟩)) =
      (if mem = some (pos, r0) then navigate es f true 1 ⟨r0.1.2, mem⟩
      else (some r0, ⟨r0.1.1, some (pos, r0)⟩))
    by_cases hm : mem = some (pos, r0)
    · rw [if_pos hm, if_pos hm]
      have hstop : pos < r0.1.2 := by
        rw [hre]
        exact lt_of_lt_of_le hlt (wf e hmem)
      rw [navigate_succ_fields, show (1 : Nat) = 0 + 1 from rfl,
        navigate_succ_fields]
      cases hl2 : locate es f true r0.1.2 with
      | none => rfl
      | some r2 =>
        show (if mem = some (r0.1.2, r2) then
            navigate es f true n ⟨r2.1.2, mem⟩
          else (some r2, ⟨r2.1.1, some (r0.1.2, r2)⟩)) =
          (if mem = some (r0.1.2, r2) then navigate es f true 0 ⟨r2.1.2, mem⟩
          else (some r2, ⟨r2.1.1, some (r0.1.2, r2)⟩))
        have hne : ¬ mem = some (r0.1.2, r2) := by
          rw [hm]
          simp only [Option.some.injEq, Prod.mk.injEq, not_and]
          intro hps
          omega
        rw [if_neg hne, if_neg hne]
    · rw [if_neg hm, if_neg hm]

lemma navRepeat_terminates (es : List SemanticElement) (f : Nat → Bool)
    (wf : ∀ e ∈ es, e.start ≤ e.stop) :
    ∀ (n : Nat) (s : NavState), qcount es f s.pos ≤ n →
      ∃ m, m ≤ qcount es f s.pos ∧ (navRepeat es f 2 m s).1 = none := by
  intro n
  induction n with
  | zero =>
    intro s h
    cases hnav : navigate es f true 2 s with
    | mk res s' =>
      cases res with
      | none => exact ⟨0, Nat.zero_le _, by simp [navRepeat, hnav]⟩
      | some r =>
        exact absurd ((navigate_fwd_advance es f wf s r s' hnav).2)
          (by omega)
  | succ n ih =>
    intro s h
    cases hnav : navigate es f true 2 s with
    | mk res s' =>
      cases res with
      | none => exact ⟨0, Nat.zero_le _, by simp [navRepeat, hnav]⟩
      | some r =>
        have hdec := (navigate_fwd_advance es f wf s r s' hnav).2
        obtain ⟨m, hm, hnone⟩ := ih s' (by omega)
        refine ⟨m + 1, by omega, ?_⟩
        simp only [navRepeat, hnav]
        exact hnone

/-- C6 (theorem): over any finite semantic-element sequence with well-formed
ranges (`start ≤ stop`), every forward navigation call that finds an element
strictly advances the insertion point (the `from_position` of the next call),
and repeated presses reach a call that returns `None` after at most as many
calls as there are qualifying elements: no call sequence loops forever.  The
third conjunct shows fuel 2 already computes the unbounded Python recursion:
the memento re-issue happens at most once per call. -/
theorem navigation_terminates (es : List SemanticElement) (f : Nat → Bool)
    (wf : ∀ e ∈ es, e.start ≤ e.stop) :
    (∀ s r s', navigate es f true 2 s = (some r, s') → s.pos < s'.pos) ∧
    (∀ s, ∃ m, m ≤ qcount es f s.pos ∧ (navRepeat es f 2 m s).1 = none) ∧
    (∀ n s, navigate es f true (n + 2) s = navigate es f true 2 s) :=
  ⟨fun s r s' h => (navigate_fwd_advance es f wf s r s' h).1,
   fun s => navRepeat_terminates es f wf (qcount es f s.pos) s le_rfl,
   fun n s => navigate_fuel_indep es f wf n s⟩

/-- C6 (witness): navigation over the two-heading document with elements at
[2,4) and [6,9) strictly advances and terminates. -/
theorem navigation_terminates_witness :
    (∀ s r s', navigate [⟨0, 2, 4⟩, ⟨0, 6, 9⟩] (fun k => k == 0) true 2 s =
      (some r, s') → s.pos < s'.pos) ∧
    (∀ s, ∃ m, m ≤ qcount [⟨0, 2, 4⟩, ⟨0, 6, 9⟩] (fun k => k == 0) s.pos ∧
      (navRepeat [⟨0, 2, 4⟩, ⟨0, 6, 9⟩] (fun k => k == 0) 2 m s).1 = none) ∧
    (∀ n s, navigate [⟨0, 2, 4⟩, ⟨0, 6, 9⟩] (fun k => k == 0) true (n + 2) s =
      navigate [⟨0, 2, 4⟩, ⟨0, 6, 9⟩] (fun k => k == 0) true 2 s) :=
  navigation_terminates [⟨0, 2, 4⟩, ⟨0, 6, 9⟩] (fun k => k == 0) (by decide)

/-- C7 (counterexample): the claim says the navigation memento is cleared by
a table-of-contents click.  It is false: `onTOCItemClick` leaves a non-`None`
memento in place. -/
theorem toc_click_does_not_clear_memento :
    (onTOCItemClick ⟨5, some (3, ((7, 9), 2)), 0⟩ 1 0).memento ≠ none := by
  decide

/-- C7 (amended): the memento is initialized to `None` on window creation and
is assigned only inside `navigate_to_structural_element`; a TOC click (or any
other movement handled by `onTOCItemClick`) leaves it untouched, so it
persists across navigation sessions instead of being cleared. -/
theorem memento_survives_toc_click (st : ViewerState) (sect target : Nat) :
    (onTOCItemClick st sect target).memento = st.memento ∧
      initialViewerState.memento = none :=
  ⟨rfl, rfl⟩

/-- C8 (theorem): on empty input the core never raises: an empty outline
yields the root section with zero children, and every locate call over an
empty element sequence returns `None` in both directions. -/
theorem empty_input_safe (t : String) (n : Int) (f : Nat → Bool)
    (fwd : Bool) (p : Nat) :
    toc_tree [] t n = some ⟨t, ⟨0, n - 1, 0⟩, []⟩ ∧
      locate [] f fwd p = none := by
  refine ⟨rfl, ?_⟩
  cases fwd <;> rfl

/-- C9 (theorem): a call to `navigate_to_structural_element` in which
`get_semantic_element` returns `None` leaves the caller state (memento and
insertion point) unchanged and produces no navigation result (the code only
announces a "no next/previous" message). -/
theorem navigate_none_preserves_state (es : List SemanticElement)
    (f : Nat → Bool) (fwd : Bool) (s : NavState) (n : Nat)
    (h : locate es f fwd s.pos = none) :
    navigate es f fwd (n + 1) s = (none, s) := by
  rw [navigate_succ, h]

/-- C9 (witness): with no semantic elements at all, navigation from position
5 returns `None` and leaves the state untouched. -/
theorem navigate_none_preserves_state_witness :
    navigate [] (fun k => k == 0) true 1 ⟨5, none⟩ = (none, ⟨5, none⟩) :=
  navigate_none_preserves_state [] (fun k => k == 0) true ⟨5, none⟩ 0 rfl

/-- C10 (theorem): `speak_utterance` restores `self.tts.speech_options` from
the copy saved on entry, so voice and prosody changes applied while
processing start_voice/start_prosody elements do not persist past the call. -/
theorem speak_utterance_restores_options (opts0 : SpeechOptions)
    (utterance : List SpeechElement) :
    (speak_utterance opts0 utterance).opts = opts0 := rfl

end Bookworm
